import Mathlib

/-!
Verification development for `playbooks/robusta_playbooks/popeye.py`.

Strings are modelled as `List Char` (`Str`).  Python's `str.find`/slicing,
`str.rpartition`, `shlex.split`/`shlex.join` (CPython, POSIX mode with
`whitespace_split=True`), dict-with-insertion-order, and the `popeye_scan`
action body are translated directly from the source.  External collaborators
(the Kubernetes job runner, `json.loads` + pydantic validation of the report,
the event emitter and the finding sink) are modelled as explicit behaviour
parameters, exactly as the specification treats them.
-/

set_option maxRecDepth 10000

abbrev Str := List Char

/-- Convert a Lean string literal to the `List Char` string model. -/
def chars (s : String) : Str := s.toList

/-- The character `LEFT CURLY BRACKET`, i.e. the JSON object opener. -/
def braceChar : Char := '\x7b'

def squoteChar : Char := '\x27'

def dquoteChar : Char := '\x22'

def escChar : Char := '\x5c'

/-- Python `logs.startswith("\x7b")` on the string model. -/
def startsBrace : Str → Bool
  | [] => false
  | c :: _ => c = braceChar

/-- One iteration of the `while` loop body of
`clean_up_k8s_logs_from_job_output`: `endline_pos = logs.find("\n")`;
if `-1` the result is the empty string, otherwise `logs[endline_pos + 1:]`.
Dropping characters up to and including the first newline is exactly that. -/
def dropThroughNl : Str → Str
  | [] => []
  | c :: cs => if c = '\n' then cs else dropThroughNl cs

/-- Structural tail of `clean_up_k8s_logs_from_job_output`.  The flag is
`false` when positioned at the start of a (potential) line, where the loop
condition `logs and not logs.startswith("\x7b")` is re-checked, and `true`
while discarding the remainder of a non-JSON line. -/
def cleanupAux : Str → Bool → Str
  | [], _ => []
  | c :: cs, false =>
    if c = braceChar then c :: cs
    else if c = '\n' then cleanupAux cs false
    else cleanupAux cs true
  | c :: cs, true =>
    if c = '\n' then cleanupAux cs false else cleanupAux cs true

/-- `clean_up_k8s_logs_from_job_output` from the source: repeatedly remove the
first line while the text is nonempty and does not start with `\x7b`. -/
def clean_up_k8s_logs_from_job_output (logs : Str) : Str :=
  cleanupAux logs false

/-- Python `"\n".join`-style concatenation used to state the prefix-line
property: each line is emitted followed by a newline. -/
def joinLines (lines : List Str) : Str :=
  (lines.map (fun l => l ++ ['\n'])).flatten

/-- `Issue` (pydantic model from the source): `group` is `__root__` or a
container name, `level` is a Python `int` (documented 0=OK 1=INFO 2=WARNING
3=ERROR, but unconstrained by the model). -/
structure Issue where
  group : Str
  gvr : Str
  level : Int
  message : Str
deriving DecidableEq

/-- `Tally` from the source. -/
structure Tally where
  ok : Int
  info : Int
  warning : Int
  error : Int
  score : Int
deriving DecidableEq

/-- `PopeyeSection` from the source; the `issues` dict is modelled as an
insertion-ordered association list. -/
structure PopeyeSection where
  sanitizer : Str
  gvr : Str
  tally : Tally
  issues : Option (List (Str × List Issue))
deriving DecidableEq

/-- `PopeyeReport` from the source. -/
structure PopeyeReport where
  score : Int
  grade : Str
  sanitizers : Option (List PopeyeSection)
  errors : Option (List Str)
deriving DecidableEq

/-- `GroupedIssues` from the source: `issues` holds the
`\x7b"level": ..., "message": ...\x7d` dicts (modelled as pairs), `level`
defaults to `0`. -/
structure GroupedIssues where
  issues : List (Int × Str)
  level : Int
deriving DecidableEq

/-- The default `GroupedIssues()` value (`issues=[]`, `level=0`). -/
instance : Inhabited GroupedIssues := ⟨{ issues := [], level := 0 }⟩

/-- The `\x7b"level": issue.level, "message": issue.message\x7d` dict appended
by `group_issues_list`. -/
def pairOf (i : Issue) : Int × Str := (i.level, i.message)

/-- Effect of one `group_issues_list` loop iteration on the group entry of
`issue.group`: append the level/message pair and fold the running `max`. -/
def updateGroup (gi : GroupedIssues) (i : Issue) : GroupedIssues :=
  { issues := gi.issues ++ [pairOf i], level := max gi.level i.level }

/-- One iteration of the `for issue in issues` loop of `group_issues_list`
over the insertion-ordered dict: `grouped_issues[issue.group]` either updates
the existing entry in place or (defaultdict) appends a fresh
`GroupedIssues()` entry updated with the issue. -/
def gilStep (gs : List (Str × GroupedIssues)) (i : Issue) : List (Str × GroupedIssues) :=
  if gs.any (fun p => p.1 = i.group) then
    gs.map (fun p => if p.1 = i.group then (p.1, updateGroup p.2 i) else p)
  else gs ++ [(i.group, updateGroup { issues := [], level := 0 } i)]

/-- `group_issues_list` from the source. -/
def group_issues_list (issues : List Issue) : List (Str × GroupedIssues) :=
  issues.foldl gilStep []

/-- Dict lookup (first matching key) on the association-list model. -/
def lookupGroup : List (Str × GroupedIssues) → Str → Option GroupedIssues
  | [], _ => none
  | p :: rest, g => if p.1 = g then some p.2 else lookupGroup rest g

/-- Python `resource.rpartition("/")` projected to the `(namespace, name)`
pair used by `popeye_scan`: split on the last `/`; with no `/` the namespace
is empty and the name is the whole string. -/
def rpartitionSlash (s : Str) : Str × Str :=
  let revName := s.reverse.takeWhile (fun c => ¬ (c = '/'))
  if revName.length = s.length then ([], s)
  else ((s.reverse.drop (revName.length + 1)).reverse, revName.reverse)

/-- The `__root__` sentinel group. -/
def rootSentinel : Str := chars "__root__"

/-- `ScanReportRow` as populated by `popeye_scan` (the fixed
`scan_type=ScanType.POPEYE` tag is modelled as the string `popeye`).
`ns` models the `namespace` field (a Lean keyword). -/
structure ScanReportRow where
  scan_id : Str
  priority : Int
  scan_type : Str
  ns : Str
  name : Str
  kind : Str
  container : Str
  content : List (Int × Str)
deriving DecidableEq

/-- Row constructed by the innermost loop of `popeye_scan`. -/
def mkRow (scanId kind ns nm : Str) (g : Str) (gi : GroupedIssues) : ScanReportRow :=
  { scan_id := scanId, priority := gi.level, scan_type := chars "popeye",
    ns := ns, name := nm, kind := kind,
    container := if g = rootSentinel then [] else g,
    content := gi.issues }

/-- Rows emitted by `popeye_scan` for one `(resource, issuesList)` entry of a
section's issues dict. -/
def rowsForResource (scanId kind resource : Str) (issues : List Issue) : List ScanReportRow :=
  let p := rpartitionSlash resource
  (group_issues_list issues).map (fun q => mkRow scanId kind p.1 p.2 q.1 q.2)

/-- Rows emitted by `popeye_scan` for one section (`section.issues or \x7b\x7d`). -/
def rowsForSection (scanId : Str) (sec : PopeyeSection) : List ScanReportRow :=
  ((sec.issues.getD []).map (fun r => rowsForResource scanId sec.sanitizer r.1 r.2)).flatten

/-- The full row expansion of `popeye_scan` (`scan_report.sanitizers or []`). -/
def expandReport (scanId : Str) (r : PopeyeReport) : List ScanReportRow :=
  ((r.sanitizers.getD []).map (rowsForSection scanId)).flatten

/-- Number of distinct values in a list of strings. -/
def distinctCount (l : List Str) : Nat := l.dedup.length

/-- True maximum of a nonempty list of levels (`0` for the empty list, which
never arises for an emitted group). -/
def trueMax : List Int → Int
  | [] => 0
  | x :: xs => xs.foldl max x

/-- `shlex.whitespace` membership (CPython: space, tab, CR, LF). -/
def isWsChar (c : Char) : Bool :=
  c = ' ' || c = '\t' || c = '\r' || c = '\n'

/-- States of CPython `shlex.read_token` in POSIX mode with
`whitespace_split=True`: between tokens (state `' '`), inside a word
(state `'a'`), inside single/double quotes, and the two escape states
(escape seen outside quotes, escape seen inside double quotes). -/
inductive LexState
  | ws
  | word
  | squote
  | dquote
  | escWord
  | escDquote
deriving DecidableEq

/-- CPython `shlex.split` (POSIX, `whitespace_split=True`, no comments),
transcribed state by state from `shlex.read_token`; `cur` is `self.token`,
`acc` the emitted tokens.  `none` models the `ValueError`s
`No closing quotation` / `No escape character`. -/
def splitAux : List Char → LexState → List Char → List (List Char) → Option (List (List Char))
  | [], LexState.ws, _, acc => some acc.reverse
  | [], LexState.word, cur, acc => some ((cur :: acc).reverse)
  | [], LexState.squote, _, _ => none
  | [], LexState.dquote, _, _ => none
  | [], LexState.escWord, _, _ => none
  | [], LexState.escDquote, _, _ => none
  | c :: cs, LexState.ws, _, acc =>
    if isWsChar c then splitAux cs LexState.ws [] acc
    else if c = squoteChar then splitAux cs LexState.squote [] acc
    else if c = dquoteChar then splitAux cs LexState.dquote [] acc
    else if c = escChar then splitAux cs LexState.escWord [] acc
    else splitAux cs LexState.word [c] acc
  | c :: cs, LexState.word, cur, acc =>
    if isWsChar c then splitAux cs LexState.ws [] (cur :: acc)
    else if c = squoteChar then splitAux cs LexState.squote cur acc
    else if c = dquoteChar then splitAux cs LexState.dquote cur acc
    else if c = escChar then splitAux cs LexState.escWord cur acc
    else splitAux cs LexState.word (cur ++ [c]) acc
  | c :: cs, LexState.squote, cur, acc =>
    if c = squoteChar then splitAux cs LexState.word cur acc
    else splitAux cs LexState.squote (cur ++ [c]) acc
  | c :: cs, LexState.dquote, cur, acc =>
    if c = dquoteChar then splitAux cs LexState.word cur acc
    else if c = escChar then splitAux cs LexState.escDquote cur acc
    else splitAux cs LexState.dquote (cur ++ [c]) acc
  | c :: cs, LexState.escWord, cur, acc =>
    splitAux cs LexState.word (cur ++ [c]) acc
  | c :: cs, LexState.escDquote, cur, acc =>
    if c = escChar ∨ c = dquoteChar then splitAux cs LexState.dquote (cur ++ [c]) acc
    else splitAux cs LexState.dquote (cur ++ [escChar, c]) acc

/-- `shlex.split` on the string model. -/
def shlex_split (s : Str) : Option (List Str) :=
  splitAux s LexState.ws [] []

/-- Characters CPython `shlex.quote` leaves unquoted: the complement of
`_find_unsafe`, i.e. ASCII `\w` (letters, digits, underscore) and the
punctuation `-@%+=:,.` and the slash. -/
def safeChar (c : Char) : Bool :=
  c.isAlpha || c.isDigit || c = '_' || c = '@' || c = '%' || c = '+' ||
    c = '=' || c = ':' || c = ',' || c = '.' || c = '/' || c = '-'

/-- The body of a single-quoted `shlex.quote` result:
`s.replace(sq, sq + dq + sq + dq + sq)` for the quote characters. -/
def quoteEncode (s : Str) : Str :=
  (s.map (fun c =>
    if c = squoteChar then [squoteChar, dquoteChar, squoteChar, dquoteChar, squoteChar]
    else [c])).flatten

/-- CPython `shlex.quote`. -/
def shlex_quote (s : Str) : Str :=
  if s = [] then [squoteChar, squoteChar]
  else if s.all safeChar then s
  else squoteChar :: (quoteEncode s ++ [squoteChar])

/-- CPython `shlex.join`: quoted tokens joined by single spaces. -/
def shlex_join : List Str → Str
  | [] => []
  | [t] => shlex_quote t
  | t :: ts => shlex_quote t ++ ' ' :: shlex_join ts

/-- The sanitization `shlex.join(shlex.split(s))` applied by `popeye_scan`
to its CLI-argument string; `none` when `shlex.split` raises. -/
def sanitizeCLI (s : Str) : Option Str :=
  (shlex_split s).map shlex_join

/-- `PopeyeParams` from the source (fields consumed by `popeye_scan`;
`args` is `Optional[str]`, the job-spec override dict is a free-form
key/value map). -/
structure PopeyeParams where
  service_account_name : Str
  timeout : Nat
  args : Option Str
  popeye_args : Str
  popeye_job_spec : List (Str × Str)
  spinach : Str
deriving DecidableEq

/-- Module constant `RUNNER_SERVICE_ACCOUNT` (imported from `robusta.api`;
external, its value is irrelevant to every claim). -/
def RUNNER_SERVICE_ACCOUNT : Str := chars "robusta-runner-service-account"

/-- Module constant `IMAGE` (the `POPEYE_IMAGE_OVERRIDE` getenv default). -/
def IMAGE : Str := chars "derailed/popeye:v0.11.1"

/-- Module constant `POPEYE_MEMORY_LIMIT` (getenv default). -/
def POPEYE_MEMORY_LIMIT : Str := chars "1Gi"

/-- Default field values of `PopeyeParams` from the source. -/
def defaultParams : PopeyeParams :=
  { service_account_name := RUNNER_SERVICE_ACCOUNT,
    timeout := 300,
    args := none,
    popeye_args := chars "-s no,ns,po,svc,sa,cm,dp,sts,ds,pv,pvc,hpa,pdb,cr,crb,ro,rb,ing,np,psp",
    popeye_job_spec := [],
    spinach := chars "popeye:\n    excludes:\n        apps/v1/daemonsets:\n        - name: rx:kube-system\n        apps/v1/deployments:\n        - name: rx:kube-system\n        v1/configmaps:\n        - name: rx:kube-system\n        v1/pods:\n        - name: rx:.*\n          codes:\n          - 106\n          - 107\n        - name: rx:kube-system\n        v1/services:\n        - name: rx:kube-system\n        v1/namespaces:\n        - name: kube-system" }

/-- `sanitize_args` from `popeye_scan`: Python truthiness of `params.args`
(`None` and the empty string both select `params.popeye_args`). -/
def sanitizeArgs (params : PopeyeParams) : Option Str :=
  match params.args with
  | some a => if a = [] then sanitizeCLI params.popeye_args else sanitizeCLI a
  | none => sanitizeCLI params.popeye_args

/-- The `NodeSelectorRequirement` of the hard node affinity built by
`popeye_scan`. -/
structure NodeSelReq where
  key : Str
  operator : Str
  values : List Str
deriving DecidableEq

/-- The shell command string of the scanner container. -/
def commandLine (spinach sargs : Str) : Str :=
  chars "echo \x27" ++ spinach ++
    chars "\x27 > /tmp/spinach.yaml && popeye -f /tmp/spinach.yaml " ++ sargs ++
    chars " -o json --force-exit-zero"

/-- The `PodSpec` value built by `popeye_scan`, restricted to the fields the
source sets (the container `name=to_kubernetes_name(IMAGE)` is an external
helper and is not modelled); `extra` carries the `**params.popeye_job_spec`
splice. -/
structure PodSpecModel where
  serviceAccountName : Str
  image : Str
  command : List Str
  memoryLimit : Str
  archRequirement : NodeSelReq
  restartPolicy : Str
  extra : List (Str × Str)
deriving DecidableEq

/-- Keyword arguments `popeye_scan` passes to `PodSpec(...)` explicitly; a
`popeye_job_spec` key equal to one of these makes the `**` splice raise
`TypeError: got multiple values for keyword argument`. -/
def explicitPodSpecKeys : List Str :=
  [chars "serviceAccountName", chars "containers", chars "affinity", chars "restartPolicy"]

/-- Construction of the `PodSpec` inside `popeye_scan`; `none` models the
duplicate-keyword `TypeError` of the `**params.popeye_job_spec` splice
(hikaru additionally rejects keys that are not `PodSpec` fields; that
external field list is not modelled, so acceptance here over-approximates). -/
def buildPodSpec (params : PopeyeParams) (sargs : Str) : Option PodSpecModel :=
  if params.popeye_job_spec.any (fun kv => explicitPodSpecKeys.any (fun k => k = kv.1)) then
    none
  else
    some { serviceAccountName := params.service_account_name,
           image := IMAGE,
           command := [chars "/bin/sh", chars "-c", commandLine params.spinach sargs],
           memoryLimit := POPEYE_MEMORY_LIMIT,
           archRequirement :=
             { key := chars "kubernetes.io/arch", operator := chars "NotIn",
               values := [chars "arm64"] },
           restartPolicy := chars "Never",
           extra := params.popeye_job_spec }

/-- The two `ScanState` values `popeye_scan` can emit via `update_state`. -/
inductive ScanState
  | pending
  | failed
deriving DecidableEq

/-- The `Finding` submitted on success, with the enclosed
`PopeyeScanReportBlock` flattened in (title/source/aggregation key/type are
the fixed values from the source; `results` is the row list, `config` the
rendered `f-string` over `params.args` — Python renders `None` as the text
`None` — and `params.spinach`). -/
structure Finding where
  title : Str
  aggregation_key : Str
  failure : Bool
  score : Int
  results : List ScanReportRow
  config : Str
deriving DecidableEq

/-- The `f"\x7bparams.args\x7d \n\n \x7bparams.spinach\x7d"` config text. -/
def configText (params : PopeyeParams) : Str :=
  (match params.args with
   | none => chars "None"
   | some a => a) ++ chars " \n\n " ++ params.spinach

/-- Success-path finding assembly of `popeye_scan`. -/
def mkFinding (params : PopeyeParams) (scanId : Str) (report : PopeyeReport) : Finding :=
  { title := chars "Popeye Report",
    aggregation_key := chars "PopeyeReport",
    failure := false,
    score := report.score,
    results := expandReport scanId report,
    config := configText params }

/-- Observable outcome of a completed `popeye_scan` call: the `scan_updated`
states emitted in order, and the finding submitted via `event.add_finding`
(if any). -/
structure ScanResult where
  events : List ScanState
  finding : Option Finding
deriving DecidableEq

/-- The body of `popeye_scan`, with its collaborators as behaviour
parameters: `scanId` the `uuid4` value, `runJob` the
`RobustaJob.run_simple_job_spec` outcome (logs, or a raised exception
message), `parseReport` the combined
`json.loads` + `scan["popeye"]` + `PopeyeReport(**...)` outcome (`none` for
`JSONDecodeError` / `KeyError` / `ValidationError`).  A top-level
`Except.error` models an exception propagating to the caller: both
`shlex.split` (`ValueError`) and the `PodSpec` construction (`TypeError`)
run before the `try` block and before any event is emitted.  All failures
inside the `try` are caught, logged, and turned into a FAILED state. -/
def popeye_scan (params : PopeyeParams) (scanId : Str)
    (runJob : Except Str Str) (parseReport : Str → Option PopeyeReport) :
    Except Str ScanResult :=
  match sanitizeArgs params with
  | none => Except.error (chars "ValueError: No closing quotation")
  | some sargs =>
    match buildPodSpec params sargs with
    | none => Except.error (chars "TypeError: got multiple values for keyword argument")
    | some _spec =>
      match runJob with
      | Except.error _ =>
        Except.ok { events := [ScanState.pending, ScanState.failed], finding := none }
      | Except.ok logs =>
        match parseReport (clean_up_k8s_logs_from_job_output logs) with
        | none =>
          Except.ok { events := [ScanState.pending, ScanState.failed], finding := none }
        | some report =>
          Except.ok { events := [ScanState.pending],
                      finding := some (mkFinding params scanId report) }

/-- Specification-side description of one dict entry of `group_issues_list`:
the grouped issues of `g` are the level/message pairs of the input issues
whose group is `g` (in input order), merged onto the entry's previous value
(`none` when the key was absent). -/
def mergeGI : Option GroupedIssues → List Issue → Option GroupedIssues
  | none, [] => none
  | none, i :: is => some { issues := (i :: is).map pairOf,
                            level := ((i :: is).map Issue.level).foldl max 0 }
  | some gi, is => some { issues := gi.issues ++ is.map pairOf,
                          level := (is.map Issue.level).foldl max gi.level }

/-- The minimal report of the end-to-end scenario, as deserialized by the
pydantic model (`errors: null`). -/
def minimalReport : PopeyeReport :=
  { score := 90,
    grade := chars "B",
    sanitizers := some
      [{ sanitizer := chars "pod",
         gvr := chars "v1/pods",
         tally := { ok := 1, info := 0, warning := 1, error := 0, score := 90 },
         issues := some
           [(chars "default/my-pod",
             [{ group := rootSentinel, gvr := chars "v1/pods", level := 2,
                message := chars "no resource limits" }])] }],
    errors := none }

/-- An issue whose `level` is a negative Python `int` (accepted by the
pydantic field `level: int`); used to refute the unguarded max-level claim. -/
def cexIssue : Issue :=
  { group := chars "side", gvr := chars "containers", level := -1, message := chars "m" }

/-- The raw job log of the failure scenario: no line starts with the JSON
opener. -/
def c5logs : Str := chars "2024-01-01 info starting\nnot json"

/-- Parameters whose `popeye_args` is a single unclosed quote: a valid
`PopeyeParams` value on which `shlex.split` raises `ValueError` before the
`try` block of `popeye_scan`. -/
def badParams : PopeyeParams :=
  { defaultParams with popeye_args := [squoteChar] }

theorem cleanupAux_empty_or_brace (l : Str) :
    ∀ b, cleanupAux l b = [] ∨ startsBrace (cleanupAux l b) = true := by
  induction l with
  | nil => intro b; left; rfl
  | cons c cs ih =>
    intro b
    cases b with
    | false =>
      by_cases h1 : c = braceChar
      · right; simp [cleanupAux, h1, startsBrace]
      · by_cases h2 : c = '\n'
        · simpa [cleanupAux, h1, h2] using ih false
        · simpa [cleanupAux, h1, h2] using ih true
    | true =>
      by_cases h2 : c = '\n'
      · simpa [cleanupAux, h2] using ih false
      · simpa [cleanupAux, h2] using ih true

theorem cleanupAux_noNl (cs : Str) :
    ∀ tail : Str, '\n' ∉ cs →
      cleanupAux (cs ++ '\n' :: tail) true = cleanupAux tail false := by
  induction cs with
  | nil => intro tail _; simp [cleanupAux]
  | cons c cs ih =>
    intro tail h
    have hc : ¬ (c = '\n') := fun e => h (e ▸ List.mem_cons_self c cs)
    have hrest : '\n' ∉ cs := fun m => h (List.mem_cons_of_mem c m)
    simpa [cleanupAux, hc] using ih tail hrest

theorem cleanupAux_true_eq (cs : Str) :
    cleanupAux cs true = cleanupAux (dropThroughNl cs) false := by
  induction cs with
  | nil => rfl
  | cons c cs ih => by_cases h : c = '\n' <;> simp [cleanupAux, dropThroughNl, h, ih]

theorem dropThroughNl_length_le (l : Str) : (dropThroughNl l).length ≤ l.length := by
  induction l with
  | nil => simp [dropThroughNl]
  | cons c cs ih =>
    by_cases h : c = '\n'
    · simp [dropThroughNl, h]
    · simp only [dropThroughNl, if_neg h, List.length_cons]
      omega

theorem dropThroughNl_decomp (l : Str) :
    dropThroughNl l = [] ∨
      ∃ pfx : Str, '\n' ∉ pfx ∧ l = pfx ++ '\n' :: dropThroughNl l := by
  induction l with
  | nil => left; rfl
  | cons c cs ih =>
    by_cases h : c = '\n'
    · right
      refine ⟨[], by simp, ?_⟩
      simp [dropThroughNl, h]
    · rcases ih with h0 | ⟨pfx, hn, he⟩
      · left; simpa [dropThroughNl, h] using h0
      · right
        refine ⟨c :: pfx, ?_, ?_⟩
        · intro m
          rcases List.mem_cons.mp m with e | m2
          · exact h e.symm
          · exact hn m2
        · simpa [dropThroughNl, h] using congrArg (c :: ·) he

/-- C2: for every input the cleaned log is empty or starts with the JSON
opener; an input already starting with it is returned unchanged; and any
finite stack of newline-terminated prefix lines (each not starting with the
opener and containing no embedded newline) in front of a body that starts
with the opener cleans to exactly that body. -/
theorem clean_up_contract :
    (∀ logs : Str, clean_up_k8s_logs_from_job_output logs = [] ∨
        startsBrace (clean_up_k8s_logs_from_job_output logs) = true)
  ∧ (∀ logs : Str, startsBrace logs = true → clean_up_k8s_logs_from_job_output logs = logs)
  ∧ (∀ (lines : List Str) (body : Str), startsBrace body = true →
      (∀ l ∈ lines, startsBrace l = false ∧ '\n' ∉ l) →
      clean_up_k8s_logs_from_job_output (joinLines lines ++ body) = body) := by
  have noop : ∀ logs : Str, startsBrace logs = true →
      clean_up_k8s_logs_from_job_output logs = logs := by
    intro logs h
    cases logs with
    | nil => simp [startsBrace] at h
    | cons c cs =>
      have hc : c = braceChar := by simpa [startsBrace] using h
      simp [clean_up_k8s_logs_from_job_output, cleanupAux, hc]
  refine ⟨fun logs => cleanupAux_empty_or_brace logs false, noop, ?_⟩
  intro lines
  induction lines with
  | nil =>
    intro body hb _
    simpa [joinLines] using noop body hb
  | cons line rest ih =>
    intro body hb hl
    have hline := hl line (List.mem_cons_self line rest)
    have hrest : ∀ l ∈ rest, startsBrace l = false ∧ '\n' ∉ l :=
      fun l m => hl l (List.mem_cons_of_mem line m)
    have hjoin : joinLines (line :: rest) ++ body =
        line ++ '\n' :: (joinLines rest ++ body) := by
      simp [joinLines]
    rw [hjoin]
    cases line with
    | nil =>
      have : cleanupAux ('\n' :: (joinLines rest ++ body)) false =
          cleanupAux (joinLines rest ++ body) false := by
        simp [cleanupAux]
        intro h
        exact absurd h (by decide)
      simpa [clean_up_k8s_logs_from_job_output, this] using ih body hb hrest
    | cons c cs =>
      have hc1 : ¬ (c = braceChar) := by
        intro e
        have := hline.1
        simp [startsBrace, e] at this
      have hc2 : ¬ (c = '\n') := fun e => hline.2 (e ▸ List.mem_cons_self c cs)
      have hcs : '\n' ∉ cs := fun m => hline.2 (List.mem_cons_of_mem c m)
      have step : cleanupAux ((c :: cs) ++ '\n' :: (joinLines rest ++ body)) false =
          cleanupAux (cs ++ '\n' :: (joinLines rest ++ body)) true := by
        simp [cleanupAux, hc1, hc2]
      calc clean_up_k8s_logs_from_job_output ((c :: cs) ++ '\n' :: (joinLines rest ++ body))
          = cleanupAux (cs ++ '\n' :: (joinLines rest ++ body)) true := step
        _ = cleanupAux (joinLines rest ++ body) false := cleanupAux_noNl cs _ hcs
        _ = body := ih body hb hrest

/-- C2 witness: a concrete two-line prefix in front of a JSON body is removed
exactly, per the third conjunct of the contract. -/
theorem clean_up_contract_witness :
    clean_up_k8s_logs_from_job_output
        (joinLines [chars "time=x level=info", chars "starting"] ++ chars "\x7b\x22a\x22:1\x7d") =
      chars "\x7b\x22a\x22:1\x7d" :=
  clean_up_contract.2.2 [chars "time=x level=info", chars "starting"]
    (chars "\x7b\x22a\x22:1\x7d") (by decide) (by decide)

/-- C9: the loop of `clean_up_k8s_logs_from_job_output` terminates: on a
nonempty input not starting with the JSON opener, one loop iteration
(`dropThroughNl`) strictly shortens the text, removes exactly one leading
newline-free line (or empties the text when no newline remains), and
preserves the final result of the cleanup. -/
theorem clean_up_loop_terminates (logs : Str) (hne : logs ≠ [])
    (hnb : startsBrace logs = false) :
    (dropThroughNl logs).length < logs.length
  ∧ (dropThroughNl logs = [] ∨
      ∃ pfx : Str, '\n' ∉ pfx ∧ logs = pfx ++ '\n' :: dropThroughNl logs)
  ∧ clean_up_k8s_logs_from_job_output logs =
      clean_up_k8s_logs_from_job_output (dropThroughNl logs) := by
  cases logs with
  | nil => exact absurd rfl hne
  | cons c cs =>
    have hc1 : ¬ (c = braceChar) := by
      intro e
      simp [startsBrace, e] at hnb
    refine ⟨?_, dropThroughNl_decomp (c :: cs), ?_⟩
    · by_cases h : c = '\n'
      · simp [dropThroughNl, h]
      · have := dropThroughNl_length_le cs
        simp [dropThroughNl, h]
        omega
    · by_cases h : c = '\n'
      · subst h
        simp [clean_up_k8s_logs_from_job_output, cleanupAux, dropThroughNl]
        intro hbad
        exact absurd hbad (by decide)
      · calc clean_up_k8s_logs_from_job_output (c :: cs)
            = cleanupAux cs true := by
              simp [clean_up_k8s_logs_from_job_output, cleanupAux, hc1, h]
          _ = cleanupAux (dropThroughNl cs) false := cleanupAux_true_eq cs
          _ = clean_up_k8s_logs_from_job_output (dropThroughNl (c :: cs)) := by
              simp [clean_up_k8s_logs_from_job_output, dropThroughNl, h]

/-- C9 witness: the loop-iteration facts at the concrete text `ab`,
newline, `x`. -/
theorem clean_up_loop_terminates_witness :
    (dropThroughNl (chars "ab\nx")).length < (chars "ab\nx").length
  ∧ (dropThroughNl (chars "ab\nx") = [] ∨
      ∃ pfx : Str, '\n' ∉ pfx ∧ chars "ab\nx" = pfx ++ '\n' :: dropThroughNl (chars "ab\nx"))
  ∧ clean_up_k8s_logs_from_job_output (chars "ab\nx") =
      clean_up_k8s_logs_from_job_output (dropThroughNl (chars "ab\nx")) :=
  clean_up_loop_terminates (chars "ab\nx") (by decide) (by decide)

theorem lookup_map_update (gs : List (Str × GroupedIssues)) (i : Issue) (g : Str) :
    lookupGroup (gs.map (fun p => if p.1 = i.group then (p.1, updateGroup p.2 i) else p)) g =
      if g = i.group then (lookupGroup gs g).map (fun gi => updateGroup gi i)
      else lookupGroup gs g := by
  induction gs with
  | nil => by_cases h : g = i.group <;> simp [lookupGroup, h]
  | cons p rest ih =>
    by_cases h1 : p.1 = i.group
    · by_cases h2 : g = i.group
      · have hp : p.1 = g := h1.trans h2.symm
        simp [lookupGroup, h1, h2, hp]
      · have hp : ¬ (i.group = g) := fun e => h2 e.symm
        simp [lookupGroup, h1, h2, hp, ih]
    · by_cases hp : p.1 = g
      · have h2 : ¬ (g = i.group) := fun e => h1 (hp.trans e)
        simp [lookupGroup, h1, hp, h2]
      · simp [lookupGroup, h1, hp, ih]

theorem lookup_append_single (gs : List (Str × GroupedIssues)) (x : Str × GroupedIssues)
    (g : Str) :
    lookupGroup (gs ++ [x]) g =
      match lookupGroup gs g with
      | some v => some v
      | none => if x.1 = g then some x.2 else none := by
  induction gs with
  | nil => simp [lookupGroup]
  | cons p rest ih =>
    by_cases hp : p.1 = g <;> simp [lookupGroup, hp, ih]

theorem lookup_none_of_any_false (gs : List (Str × GroupedIssues)) (g : Str)
    (h : gs.any (fun p => p.1 = g) = false) : lookupGroup gs g = none := by
  induction gs with
  | nil => rfl
  | cons p rest ih =>
    simp only [List.any_cons, Bool.or_eq_false_iff, decide_eq_false_iff_not] at h
    simp [lookupGroup, h.1, ih h.2]

theorem lookup_isSome_of_any_true (gs : List (Str × GroupedIssues)) (g : Str)
    (h : gs.any (fun p => p.1 = g) = true) : (lookupGroup gs g).isSome := by
  induction gs with
  | nil => simp at h
  | cons p rest ih =>
    by_cases hp : p.1 = g
    · simp [lookupGroup, hp]
    · simp only [List.any_cons, Bool.or_eq_true, decide_eq_true_eq] at h
      rcases h with h | h
    
      · exact absurd h hp
      · simp [lookupGroup, hp, ih h]

theorem lookup_gilStep (gs : List (Str × GroupedIssues)) (i : Issue) (g : Str) :
    lookupGroup (gilStep gs i) g =
      if g = i.group then
        some (updateGroup ((lookupGroup gs g).getD { issues := [], level := 0 }) i)
      else lookupGroup gs g := by
  by_cases hany : gs.any (fun p => p.1 = i.group) = true
  · rw [gilStep, if_pos hany, lookup_map_update]
    by_cases hg : g = i.group
    · subst hg
      obtain ⟨gi, hgi⟩ :=
        Option.isSome_iff_exists.mp (lookup_isSome_of_any_true gs i.group hany)
      simp [hgi]
    · simp [hg]
  · have hany2 : gs.any (fun p => p.1 = i.group) = false :=
      Bool.eq_false_iff.mpr hany
    rw [gilStep, if_neg (by simp [hany2])]
    rw [lookup_append_single]
    by_cases hg : g = i.group
    · subst hg
      rw [lookup_none_of_any_false gs i.group hany2]
      simp
    · have : ¬ (i.group = g) := fun e => hg e.symm
      cases hval : lookupGroup gs g <;> simp [hg, this]

theorem mergeGI_nil (base : Option GroupedIssues) : mergeGI base [] = base := by
  cases base <;> simp [mergeGI]

theorem mergeGI_step (base : Option GroupedIssues) (i : Issue) (rest : List Issue) :
    mergeGI (some (updateGroup (base.getD { issues := [], level := 0 }) i)) rest =
      mergeGI base (i :: rest) := by
  cases base with
  | none => cases rest <;> simp [mergeGI, updateGroup]
  | some gi => cases rest <;> simp [mergeGI, updateGroup]

theorem lookup_foldl (issues : List Issue) :
    ∀ (gs : List (Str × GroupedIssues)) (g : Str),
      lookupGroup (issues.foldl gilStep gs) g =
        mergeGI (lookupGroup gs g) (issues.filter (fun i => i.group = g)) := by
  induction issues with
  | nil => intro gs g; simp [mergeGI_nil]
  | cons i rest ih =>
    intro gs g
    rw [List.foldl_cons, ih (gilStep gs i) g, lookup_gilStep]
    by_cases hg : g = i.group
    · have hfil : (i :: rest).filter (fun j => j.group = g) =
          i :: rest.filter (fun j => j.group = g) := by
        simp [List.filter_cons, hg.symm]
      rw [hfil, if_pos hg, mergeGI_step]
    · have hfil : (i :: rest).filter (fun j => j.group = g) =
          rest.filter (fun j => j.group = g) := by
        have : ¬ (i.group = g) := fun e => hg e.symm
        simp [List.filter_cons, this]
      rw [hfil, if_neg hg]

theorem gil_lookup (issues : List Issue) (g : Str) :
    lookupGroup (group_issues_list issues) g =
      mergeGI none (issues.filter (fun i => i.group = g)) :=
  lookup_foldl issues [] g

theorem any_iff_mem_keys (gs : List (Str × GroupedIssues)) (g : Str) :
    gs.any (fun p => p.1 = g) = true ↔ g ∈ gs.map Prod.fst := by
  simp only [List.any_eq_true, decide_eq_true_eq, List.mem_map]

theorem keys_gilStep (gs : List (Str × GroupedIssues)) (i : Issue) :
    (gilStep gs i).map Prod.fst =
      if gs.any (fun p => p.1 = i.group) then gs.map Prod.fst
      else gs.map Prod.fst ++ [i.group] := by
  by_cases hany : gs.any (fun p => p.1 = i.group) = true
  · rw [gilStep, if_pos hany, if_pos hany, List.map_map]
    apply List.map_congr_left
    intro p _
    by_cases hp : p.1 = i.group <;> simp [hp]
  · have hany2 : gs.any (fun p => p.1 = i.group) = false :=
      Bool.eq_false_iff.mpr hany
    rw [gilStep, if_neg (by simp [hany2]), if_neg (by simp [hany2])]
    simp

theorem keys_gilStep_nodup (gs : List (Str × GroupedIssues)) (i : Issue)
    (hnd : (gs.map Prod.fst).Nodup) : ((gilStep gs i).map Prod.fst).Nodup := by
  rw [keys_gilStep]
  by_cases hany : gs.any (fun p => p.1 = i.group) = true
  · simpa [hany] using hnd
  · have hany2 : gs.any (fun p => p.1 = i.group) = false :=
      Bool.eq_false_iff.mpr hany
    have hnm : i.group ∉ gs.map Prod.fst := fun hm => hany ((any_iff_mem_keys gs i.group).mpr hm)
    rw [if_neg (by simp [hany2])]
    simp only [List.nodup_append, List.nodup_cons, List.nodup_nil]
    exact ⟨hnd, ⟨by simp, trivial⟩, by simpa [List.disjoint_singleton] using hnm⟩

theorem mem_keys_gilStep (gs : List (Str × GroupedIssues)) (i : Issue) (g : Str) :
    g ∈ (gilStep gs i).map Prod.fst ↔ g ∈ gs.map Prod.fst ∨ g = i.group := by
  rw [keys_gilStep]
  by_cases hany : gs.any (fun p => p.1 = i.group) = true
  · rw [if_pos hany]
    constructor
    · exact fun h => Or.inl h
    · rintro (h | h)
      · exact h
      · exact h ▸ (any_iff_mem_keys gs i.group).mp hany
  · have hany2 : gs.any (fun p => p.1 = i.group) = false :=
      Bool.eq_false_iff.mpr hany
    rw [if_neg (by simp [hany2])]
    simp

theorem keys_foldl_nodup (issues : List Issue) :
    ∀ gs : List (Str × GroupedIssues), (gs.map Prod.fst).Nodup →
      ((issues.foldl gilStep gs).map Prod.fst).Nodup := by
  induction issues with
  | nil => intro gs h; exact h
  | cons i rest ih =>
    intro gs h
    exact ih (gilStep gs i) (keys_gilStep_nodup gs i h)

theorem mem_keys_foldl (issues : List Issue) :
    ∀ (gs : List (Str × GroupedIssues)) (g : Str),
      g ∈ (issues.foldl gilStep gs).map Prod.fst ↔
        g ∈ gs.map Prod.fst ∨ g ∈ issues.map Issue.group := by
  induction issues with
  | nil => intro gs g; simp
  | cons i rest ih =>
    intro gs g
    rw [List.foldl_cons, ih (gilStep gs i) g, mem_keys_gilStep]
    simp only [List.map_cons, List.mem_cons]
    tauto

theorem gil_keys_nodup (issues : List Issue) :
    ((group_issues_list issues).map Prod.fst).Nodup :=
  keys_foldl_nodup issues [] (by simp)

theorem gil_mem_keys (issues : List Issue) (g : Str) :
    g ∈ (group_issues_list issues).map Prod.fst ↔ g ∈ issues.map Issue.group := by
  rw [group_issues_list, mem_keys_foldl issues [] g]
  simp

theorem gil_length (issues : List Issue) :
    (group_issues_list issues).length = distinctCount (issues.map Issue.group) := by
  have h1 : (group_issues_list issues).length =
      ((group_issues_list issues).map Prod.fst).length := (List.length_map _ _).symm
  have h2 : ((group_issues_list issues).map Prod.fst).toFinset =
      (issues.map Issue.group).toFinset := by
    apply Finset.ext
    intro g
    simp only [List.mem_toFinset]
    exact gil_mem_keys issues g
  rw [h1, ← List.toFinset_card_of_nodup (gil_keys_nodup issues), h2,
    List.card_toFinset]
  rfl



theorem sum_map_update (gs : List (Str × GroupedIssues)) (i : Issue)
    (hnd : (gs.map Prod.fst).Nodup) (hmem : i.group ∈ gs.map Prod.fst) :
    ((gs.map (fun p => if p.1 = i.group then (p.1, updateGroup p.2 i) else p)).map
        (fun p => p.2.issues.length)).sum =
      (gs.map (fun p => p.2.issues.length)).sum + 1 := by
  induction gs with
  | nil => simp at hmem
  | cons p rest ih =>
    simp only [List.map_cons, List.nodup_cons] at hnd
    by_cases hp : p.1 = i.group
    · have hrest : rest.map (fun q => if q.1 = i.group then (q.1, updateGroup q.2 i) else q) =
          rest := by
        have hcong : ∀ q ∈ rest,
            (if q.1 = i.group then (q.1, updateGroup q.2 i) else q) = id q := by
          intro q hq
          have hne : ¬ (q.1 = i.group) := by
            intro e
            exact hnd.1 (by
              rw [hp, ← e]
              exact List.mem_map.mpr ⟨q, hq, rfl⟩)
          simp [hne]
        rw [List.map_congr_left hcong, List.map_id]
      simp only [List.map_cons, List.sum_cons]
      rw [hrest, if_pos hp]
      simp only [updateGroup, List.length_append, List.length_cons, List.length_nil]
      omega
    · have hmem2 : i.group ∈ rest.map Prod.fst := by
        rcases List.mem_cons.mp hmem with he | hm
        · exact absurd he.symm hp
        · exact hm
      simp only [List.map_cons, List.sum_cons, if_neg hp, ih hnd.2 hmem2]
      omega

theorem sum_gilStep (gs : List (Str × GroupedIssues)) (i : Issue)
    (hnd : (gs.map Prod.fst).Nodup) :
    ((gilStep gs i).map (fun p => p.2.issues.length)).sum =
      (gs.map (fun p => p.2.issues.length)).sum + 1 := by
  by_cases hany : gs.any (fun p => p.1 = i.group) = true
  · rw [gilStep, if_pos hany]
    exact sum_map_update gs i hnd ((any_iff_mem_keys gs i.group).mp hany)
  · have hany2 : gs.any (fun p => p.1 = i.group) = false :=
      Bool.eq_false_iff.mpr hany
    rw [gilStep, if_neg (by simp [hany2])]
    simp [updateGroup]

theorem sum_foldl (issues : List Issue) :
    ∀ gs : List (Str × GroupedIssues), (gs.map Prod.fst).Nodup →
      ((issues.foldl gilStep gs).map (fun p => p.2.issues.length)).sum =
        (gs.map (fun p => p.2.issues.length)).sum + issues.length := by
  induction issues with
  | nil => intro gs _; simp
  | cons i rest ih =>
    intro gs hnd
    rw [List.foldl_cons, ih (gilStep gs i) (keys_gilStep_nodup gs i hnd),
      sum_gilStep gs i hnd]
    simp only [List.length_cons]
    omega

theorem gil_sum (issues : List Issue) :
    ((group_issues_list issues).map (fun p => p.2.issues.length)).sum = issues.length := by
  simpa using sum_foldl issues [] (by simp)

theorem lookup_of_mem (gs : List (Str × GroupedIssues)) (g : Str) (gi : GroupedIssues)
    (hnd : (gs.map Prod.fst).Nodup) (h : (g, gi) ∈ gs) : lookupGroup gs g = some gi := by
  induction gs with
  | nil => simp at h
  | cons p rest ih =>
    simp only [List.map_cons, List.nodup_cons] at hnd
    rcases List.mem_cons.mp h with he | hm
    · rw [← he]
      simp [lookupGroup]
    · have hne : ¬ (p.1 = g) := by
        intro e
        exact hnd.1 (by
          rw [e]
          exact List.mem_map.mpr ⟨(g, gi), hm, rfl⟩)
      simp [lookupGroup, hne, ih hnd.2 hm]

theorem gil_mem_spec (issues : List Issue) (g : Str) (gi : GroupedIssues)
    (h : (g, gi) ∈ group_issues_list issues) :
    gi.issues = (issues.filter (fun i => i.group = g)).map pairOf ∧
      gi.level = ((issues.filter (fun i => i.group = g)).map Issue.level).foldl max 0 := by
  have hl := lookup_of_mem (group_issues_list issues) g gi (gil_keys_nodup issues) h
  rw [gil_lookup] at hl
  cases hfil : issues.filter (fun i => i.group = g) with
  | nil =>
    rw [hfil] at hl
    simp [mergeGI] at hl
  | cons f fs =>
    rw [hfil] at hl
    have hgi :
        ({ issues := (f :: fs).map pairOf,
           level := ((f :: fs).map Issue.level).foldl max 0 } : GroupedIssues) = gi := by
      simpa [mergeGI] using hl
    rw [← hgi]
    exact ⟨rfl, rfl⟩

theorem foldl_max_shift (l : List Int) :
    ∀ a b : Int, l.foldl max (max a b) = max a (l.foldl max b) := by
  induction l with
  | nil => intro a b; rfl
  | cons x xs ih =>
    intro a b
    simp only [List.foldl_cons]
    rw [max_assoc, ih]

theorem foldl_max_nonneg_eq_trueMax (l : List Int) (hne : l ≠ [])
    (hpos : ∀ x ∈ l, 0 ≤ x) : l.foldl max 0 = trueMax l := by
  cases l with
  | nil => exact absurd rfl hne
  | cons x xs =>
    have h0 : max 0 x = x := max_eq_right (hpos x (List.mem_cons_self x xs))
    simp only [List.foldl_cons, trueMax, h0]

theorem rowsForResource_length (scanId kind resource : Str) (issues : List Issue) :
    (rowsForResource scanId kind resource issues).length =
      distinctCount (issues.map Issue.group) := by
  simp [rowsForResource, gil_length]

theorem gil_filter_ne_nil (issues : List Issue) (g : Str) (gi : GroupedIssues)
    (h : (g, gi) ∈ group_issues_list issues) :
    (issues.filter (fun i => i.group = g)).map Issue.level ≠ [] := by
  have hmem : g ∈ issues.map Issue.group :=
    (gil_mem_keys issues g).mp (List.mem_map.mpr ⟨(g, gi), h, rfl⟩)
  obtain ⟨i0, hi0, hgi0⟩ := List.mem_map.mp hmem
  have hin : i0 ∈ issues.filter (fun i => i.group = g) :=
    List.mem_filter.mpr ⟨hi0, by simp [hgi0]⟩
  intro hempty
  rw [List.map_eq_nil_iff] at hempty
  rw [hempty] at hin
  simp at hin

theorem foldl_max_zero (l : List Int) (hne : l ≠ []) :
    l.foldl max 0 = max 0 (trueMax l) := by
  cases l with
  | nil => exact absurd rfl hne
  | cons x xs =>
    simp only [List.foldl_cons, trueMax]
    exact foldl_max_shift xs 0 x

/-- C10: `group_issues_list` partitions its input without loss or
duplication: the grouped level/message lists together have exactly as many
entries as the input list, and each group's entries are the level/message
pairs of precisely the input issues bearing that group, in input order. -/
theorem group_partition (issues : List Issue) :
    ((group_issues_list issues).map (fun p => p.2.issues.length)).sum = issues.length
  ∧ ∀ g gi, (g, gi) ∈ group_issues_list issues →
      gi.issues = (issues.filter (fun i => i.group = g)).map pairOf :=
  ⟨gil_sum issues, fun g gi h => (gil_mem_spec issues g gi h).1⟩

/-- C10 witness: the partition facts at a concrete three-issue list with two
groups. -/
theorem group_partition_witness :
    ((group_issues_list
        [{ group := chars "c1", gvr := chars "x", level := 2, message := chars "m1" },
         { group := chars "c2", gvr := chars "x", level := 3, message := chars "m2" },
         { group := chars "c1", gvr := chars "x", level := 1, message := chars "m3" }]).map
      (fun p => p.2.issues.length)).sum = 3
  ∧ ({ issues := [(2, chars "m1"), (1, chars "m3")], level := 2 } : GroupedIssues).issues =
      (([{ group := chars "c1", gvr := chars "x", level := 2, message := chars "m1" },
         { group := chars "c2", gvr := chars "x", level := 3, message := chars "m2" },
         { group := chars "c1", gvr := chars "x", level := 1, message := chars "m3" }] :
          List Issue).filter (fun i => i.group = chars "c1")).map pairOf :=
  ⟨(group_partition _).1,
   (group_partition _).2 (chars "c1")
     { issues := [(2, chars "m1"), (1, chars "m3")], level := 2 } (by decide)⟩

/-- C3 (amended): for every issue list of a resource — negative levels
included — the row count equals the number of distinct group values; each
group's `level`, and hence each emitted row's priority, equals the maximum
of `0` and the group's issue levels (the `GroupedIssues` fold starts at
`0`); row priorities are exactly the group levels; and a row's container is
empty for the root sentinel and the group name otherwise.  When every level
is nonnegative (Popeye's documented range is 0-3) the priority is exactly
the group's true maximum level. -/
theorem group_rows_spec (scanId kind resource : Str) (issues : List Issue) :
    (rowsForResource scanId kind resource issues).length =
      distinctCount (issues.map Issue.group)
  ∧ (∀ g gi, (g, gi) ∈ group_issues_list issues →
      gi.level =
        max 0 (trueMax ((issues.filter (fun i => i.group = g)).map Issue.level)))
  ∧ ((∀ i ∈ issues, 0 ≤ i.level) →
      ∀ g gi, (g, gi) ∈ group_issues_list issues →
        gi.level = trueMax ((issues.filter (fun i => i.group = g)).map Issue.level))
  ∧ (rowsForResource scanId kind resource issues).map ScanReportRow.priority =
      (group_issues_list issues).map (fun p => p.2.level)
  ∧ (rowsForResource scanId kind resource issues).map ScanReportRow.container =
      (group_issues_list issues).map (fun p => if p.1 = rootSentinel then [] else p.1) := by
  refine ⟨rowsForResource_length scanId kind resource issues, ?_, ?_, ?_, ?_⟩
  · intro g gi h
    rw [(gil_mem_spec issues g gi h).2, foldl_max_zero _ (gil_filter_ne_nil issues g gi h)]
  · intro hpos g gi h
    have hpos2 : ∀ x ∈ (issues.filter (fun i => i.group = g)).map Issue.level, 0 ≤ x := by
      intro x hx
      obtain ⟨i, hi, rfl⟩ := List.mem_map.mp hx
      exact hpos i (List.mem_filter.mp hi).1
    rw [(gil_mem_spec issues g gi h).2,
      foldl_max_nonneg_eq_trueMax _ (gil_filter_ne_nil issues g gi h) hpos2]
  · simp [rowsForResource, mkRow, List.map_map, Function.comp]
  · simp [rowsForResource, mkRow, List.map_map, Function.comp]

/-- C3 witness: the amended facts at a concrete two-issue list that contains
a negative level (row count, clamped-max rule at the negative-level group,
container mapping), and the true-max refinement at an all-nonnegative
one-issue list. -/
theorem group_rows_spec_witness :
    (rowsForResource [] (chars "pod") (chars "default/my-pod")
        [cexIssue,
         { group := rootSentinel, gvr := chars "v1/pods", level := 2,
           message := chars "m2" }]).length = 2
  ∧ ({ issues := [(-1, chars "m")], level := 0 } : GroupedIssues).level =
      max 0 (trueMax ((([cexIssue,
          { group := rootSentinel, gvr := chars "v1/pods", level := 2,
            message := chars "m2" }] :
            List Issue).filter (fun i => i.group = chars "side")).map Issue.level))
  ∧ ({ issues := [(3, chars "m3")], level := 3 } : GroupedIssues).level =
      trueMax
        ((([{ group := chars "web", gvr := chars "containers", level := 3,
              message := chars "m3" }] :
             List Issue).filter (fun i => i.group = chars "web")).map Issue.level)
  ∧ (rowsForResource [] (chars "pod") (chars "default/my-pod")
        [cexIssue,
         { group := rootSentinel, gvr := chars "v1/pods", level := 2,
           message := chars "m2" }]).map
      ScanReportRow.container = [chars "side", []] := by
  have h := group_rows_spec [] (chars "pod") (chars "default/my-pod")
    [cexIssue,
     { group := rootSentinel, gvr := chars "v1/pods", level := 2, message := chars "m2" }]
  have h2 := group_rows_spec [] (chars "pod") (chars "default/my-pod")
    [{ group := chars "web", gvr := chars "containers", level := 3, message := chars "m3" }]
  refine ⟨?_, ?_, ?_, ?_⟩
  · rw [h.1]; decide
  · exact h.2.1 (chars "side") { issues := [(-1, chars "m")], level := 0 } (by decide)
  · exact h2.2.2.1 (by decide) (chars "web")
      { issues := [(3, chars "m3")], level := 3 } (by decide)
  · rw [h.2.2.2.2]; decide

/-- C3 counterexample: the pydantic `level: int` field admits negative
levels; for a single issue of level `-1` the emitted row's priority is `0`
(the `GroupedIssues.level` fold starts at `0`), not the group's true maximum
level `-1`, so the unguarded claim is false. -/
theorem group_level_counterexample :
    (rowsForResource [] (chars "pod") (chars "default/my-pod") [cexIssue]).map
        ScanReportRow.priority = [0]
  ∧ trueMax (([cexIssue].filter (fun i => i.group = chars "side")).map Issue.level) = -1
  ∧ ¬ ((0 : Int) = -1) := by
  refine ⟨by decide, by decide, by decide⟩

/-- C7: the number of rows a section contributes equals the sum over its
resources of the number of distinct group values in that resource's issue
list. -/
theorem section_row_count (scanId : Str) (sec : PopeyeSection) :
    (rowsForSection scanId sec).length =
      ((sec.issues.getD []).map (fun r => distinctCount (r.2.map Issue.group))).sum := by
  rw [rowsForSection, List.length_flatten, List.map_map]
  congr 1
  apply List.map_congr_left
  intro r _
  exact rowsForResource_length scanId sec.sanitizer r.1 r.2

/-- C4: the end-to-end minimal report expands to exactly one row with
namespace `default`, name `my-pod`, kind `pod`, empty container, priority 2
and the single level-2 message as content. -/
theorem minimal_report_rows :
    expandReport [] minimalReport =
      [{ scan_id := [], priority := 2, scan_type := chars "popeye",
         ns := chars "default", name := chars "my-pod", kind := chars "pod",
         container := [], content := [(2, chars "no resource limits")] }] := by
  decide

theorem safeChar_props (c : Char) (h : safeChar c = true) :
    isWsChar c = false ∧ ¬ (c = squoteChar) ∧ ¬ (c = dquoteChar) ∧ ¬ (c = escChar) := by
  have h1 : ¬ (c = ' ') := by rintro rfl; revert h; decide
  have h2 : ¬ (c = '\t') := by rintro rfl; revert h; decide
  have h3 : ¬ (c = '\r') := by rintro rfl; revert h; decide
  have h4 : ¬ (c = '\n') := by rintro rfl; revert h; decide
  have h5 : ¬ (c = squoteChar) := by rintro rfl; revert h; decide
  have h6 : ¬ (c = dquoteChar) := by rintro rfl; revert h; decide
  have h7 : ¬ (c = escChar) := by rintro rfl; revert h; decide
  exact ⟨by simp [isWsChar, h1, h2, h3, h4], h5, h6, h7⟩

theorem consume_word (t : Str) :
    ∀ (cs cur : Str) (acc : List Str), t.all safeChar = true →
      splitAux (t ++ cs) LexState.word cur acc = splitAux cs LexState.word (cur ++ t) acc := by
  induction t with
  | nil => intro cs cur acc _; simp
  | cons c t' ih =>
    intro cs cur acc hall
    simp only [List.all_cons, Bool.and_eq_true] at hall
    obtain ⟨hws, hsq, hdq, hesc⟩ := safeChar_props c hall.1
    simp only [List.cons_append, splitAux, hws, Bool.false_eq_true, if_false,
      if_neg hsq, if_neg hdq, if_neg hesc, List.append_eq]
    rw [ih cs (cur ++ [c]) acc hall.2]
    simp

theorem consume_word_ws (t : Str) (cs cur : Str) (acc : List Str)
    (hne : t ≠ []) (hall : t.all safeChar = true) :
    splitAux (t ++ cs) LexState.ws cur acc = splitAux cs LexState.word t acc := by
  cases t with
  | nil => exact absurd rfl hne
  | cons c t' =>
    simp only [List.all_cons, Bool.and_eq_true] at hall
    obtain ⟨hws, hsq, hdq, hesc⟩ := safeChar_props c hall.1
    simp only [List.cons_append, splitAux, hws, Bool.false_eq_true, if_false,
      if_neg hsq, if_neg hdq, if_neg hesc, List.append_eq]
    rw [consume_word t' cs [c] acc hall.2]
    simp

theorem quoteEncode_cons (c : Char) (t : Str) :
    quoteEncode (c :: t) =
      (if c = squoteChar then [squoteChar, dquoteChar, squoteChar, dquoteChar, squoteChar]
       else [c]) ++ quoteEncode t := by
  simp [quoteEncode]

theorem consume_squote_body (t : Str) :
    ∀ (cs cur : Str) (acc : List Str),
      splitAux (quoteEncode t ++ (squoteChar :: cs)) LexState.squote cur acc =
        splitAux cs LexState.word (cur ++ t) acc := by
  induction t with
  | nil =>
    intro cs cur acc
    simp [quoteEncode, splitAux]
  | cons c t' ih =>
    intro cs cur acc
    rw [quoteEncode_cons]
    by_cases hc : c = squoteChar
    · subst hc
      rw [if_pos rfl]
      have hstep :
          splitAux (([squoteChar, dquoteChar, squoteChar, dquoteChar, squoteChar] ++
              quoteEncode t') ++ (squoteChar :: cs)) LexState.squote cur acc =
            splitAux (quoteEncode t' ++ (squoteChar :: cs)) LexState.squote
              (cur ++ [squoteChar]) acc := by
        simp [splitAux, squoteChar, dquoteChar, escChar, isWsChar]
      rw [hstep, ih cs (cur ++ [squoteChar]) acc]
      simp
    · rw [if_neg hc]
      have hstep :
          splitAux (([c] ++ quoteEncode t') ++ (squoteChar :: cs)) LexState.squote cur acc =
            splitAux (quoteEncode t' ++ (squoteChar :: cs)) LexState.squote
              (cur ++ [c]) acc := by
        simp [splitAux, if_neg hc]
      rw [hstep, ih cs (cur ++ [c]) acc]
      simp

theorem consume_quote (t : Str) (cs cur : Str) (acc : List Str) :
    splitAux (shlex_quote t ++ cs) LexState.ws cur acc =
      splitAux cs LexState.word t acc := by
  by_cases hne : t = []
  · subst hne
    simp [shlex_quote, splitAux, squoteChar, dquoteChar, escChar, isWsChar]
  · by_cases hall : t.all safeChar = true
    · rw [shlex_quote, if_neg hne, if_pos hall]
      exact consume_word_ws t cs cur acc hne hall
    · rw [shlex_quote, if_neg hne, if_neg hall]
      have hopen :
          splitAux ((squoteChar :: (quoteEncode t ++ [squoteChar])) ++ cs) LexState.ws cur acc =
            splitAux ((quoteEncode t ++ [squoteChar]) ++ cs) LexState.squote [] acc := by
        simp [splitAux, squoteChar, isWsChar]
      rw [hopen, List.append_assoc, List.singleton_append,
        consume_squote_body t cs [] acc]
      simp

theorem split_join_aux (ts : List Str) :
    ∀ acc : List Str,
      splitAux (shlex_join ts) LexState.ws [] acc = some (acc.reverse ++ ts) := by
  induction ts with
  | nil => intro acc; simp [shlex_join, splitAux]
  | cons t ts ih =>
    intro acc
    cases ts with
    | nil =>
      have h0 : shlex_join [t] = shlex_quote t ++ [] := by simp [shlex_join]
      rw [h0, consume_quote t [] [] acc]
      simp [splitAux]
    | cons t' ts' =>
      have h0 : shlex_join (t :: t' :: ts') = shlex_quote t ++ (' ' :: shlex_join (t' :: ts')) := rfl
      rw [h0, consume_quote t (' ' :: shlex_join (t' :: ts')) [] acc]
      have hsp : splitAux (' ' :: shlex_join (t' :: ts')) LexState.word t acc =
          splitAux (shlex_join (t' :: ts')) LexState.ws [] (t :: acc) := by
        simp [splitAux, isWsChar]
      rw [hsp, ih (t :: acc)]
      simp

theorem shlex_split_join (ts : List Str) : shlex_split (shlex_join ts) = some ts := by
  have h := split_join_aux ts []
  simpa [shlex_split] using h

/-- C6: the CLI-argument sanitization `shlex.join(shlex.split(s))` is
idempotent: whenever it succeeds, applying it to its own output returns the
output unchanged. -/
theorem sanitize_idempotent (s r : Str) (h : sanitizeCLI s = some r) :
    sanitizeCLI r = some r := by
  cases hs : shlex_split s with
  | none => rw [sanitizeCLI, hs] at h; simp at h
  | some ts =>
    rw [sanitizeCLI, hs] at h
    have hr : r = shlex_join ts := by
      simpa using h.symm
    subst hr
    simp [sanitizeCLI, shlex_split_join]

/-- C6 witness: sanitizing the already-sanitized form of `a 'b'` returns it
unchanged. -/
theorem sanitize_idempotent_witness : sanitizeCLI (chars "a b") = some (chars "a b") :=
  sanitize_idempotent (chars "a \x27b\x27") (chars "a b") (by decide)

/-- C8: whenever the `PodSpec` construction succeeds, the built spec carries
the hard node-affinity requirement `kubernetes.io/arch NotIn [arm64]` and
restart policy `Never`, for every parameter choice. -/
theorem pod_spec_policy (params : PopeyeParams) (sargs : Str) (spec : PodSpecModel)
    (h : buildPodSpec params sargs = some spec) :
    spec.archRequirement =
      { key := chars "kubernetes.io/arch", operator := chars "NotIn",
        values := [chars "arm64"] }
  ∧ spec.restartPolicy = chars "Never" := by
  rw [buildPodSpec] at h
  by_cases hc : params.popeye_job_spec.any
      (fun kv => explicitPodSpecKeys.any (fun k => k = kv.1)) = true
  · rw [if_pos hc] at h
    simp at h
  · rw [if_neg hc] at h
    have := Option.some.inj h
    rw [← this]
    exact ⟨rfl, rfl⟩

/-- C8 witness: the spec built from the default parameters (empty override
map) exists and satisfies the policy. -/
theorem pod_spec_policy_witness :
    ∃ spec : PodSpecModel, buildPodSpec defaultParams [] = some spec ∧
      spec.archRequirement =
        { key := chars "kubernetes.io/arch", operator := chars "NotIn",
          values := [chars "arm64"] }
    ∧ spec.restartPolicy = chars "Never" :=
  ⟨_, rfl, (pod_spec_policy defaultParams [] _ rfl).1,
    (pod_spec_policy defaultParams [] _ rfl).2⟩

theorem popeye_scan_err (params : PopeyeParams) (scanId : Str) (e : Str)
    (parseReport : Str → Option PopeyeReport) (sargs : Str) (spec : PodSpecModel)
    (hsan : sanitizeArgs params = some sargs)
    (hspec : buildPodSpec params sargs = some spec) :
    popeye_scan params scanId (Except.error e) parseReport =
      Except.ok { events := [ScanState.pending, ScanState.failed], finding := none } := by
  simp only [popeye_scan, hsan, hspec]

theorem popeye_scan_ok (params : PopeyeParams) (scanId : Str) (logs : Str)
    (parseReport : Str → Option PopeyeReport) (sargs : Str) (spec : PodSpecModel)
    (hsan : sanitizeArgs params = some sargs)
    (hspec : buildPodSpec params sargs = some spec) :
    popeye_scan params scanId (Except.ok logs) parseReport =
      match parseReport (clean_up_k8s_logs_from_job_output logs) with
      | none =>
        Except.ok { events := [ScanState.pending, ScanState.failed], finding := none }
      | some report =>
        Except.ok { events := [ScanState.pending],
                    finding := some (mkFinding params scanId report) } := by
  simp only [popeye_scan, hsan, hspec]

/-- C1 (amended): for every invocation whose CLI-argument shell-splitting and
pod-spec construction succeed, and every behaviour of the job runner and of
the JSON parsing/validation, `popeye_scan` completes without propagating an
exception and emits exactly one lifecycle pair: PENDING followed either by a
FAILED state with no finding, or by a submitted finding.  (The argument
sanitization and spec construction run before the `try` block and before any
event is emitted; their exceptions do propagate — see the counterexample.) -/
theorem popeye_scan_lifecycle (params : PopeyeParams) (scanId : Str)
    (runJob : Except Str Str) (parseReport : Str → Option PopeyeReport)
    (sargs : Str) (spec : PodSpecModel)
    (hsan : sanitizeArgs params = some sargs)
    (hspec : buildPodSpec params sargs = some spec) :
    ∃ res : ScanResult,
      popeye_scan params scanId runJob parseReport = Except.ok res ∧
        ((res.events = [ScanState.pending, ScanState.failed] ∧ res.finding = none) ∨
         (res.events = [ScanState.pending] ∧ res.finding.isSome = true)) := by
  cases runJob with
  | error e =>
    exact ⟨_, popeye_scan_err params scanId e parseReport sargs spec hsan hspec,
      Or.inl ⟨rfl, rfl⟩⟩
  | ok logs =>
    rw [popeye_scan_ok params scanId logs parseReport sargs spec hsan hspec]
    cases hp : parseReport (clean_up_k8s_logs_from_job_output logs) with
    | none => exact ⟨_, rfl, Or.inl ⟨rfl, rfl⟩⟩
    | some report => exact ⟨_, rfl, Or.inr ⟨rfl, rfl⟩⟩

/-- C1 witness: the lifecycle pair at the default parameters with a job that
returns empty logs and a parser that rejects them. -/
theorem popeye_scan_lifecycle_witness :
    ∃ res : ScanResult,
      popeye_scan defaultParams [] (Except.ok []) (fun _ => none) = Except.ok res ∧
        ((res.events = [ScanState.pending, ScanState.failed] ∧ res.finding = none) ∨
         (res.events = [ScanState.pending] ∧ res.finding.isSome = true)) :=
  popeye_scan_lifecycle defaultParams [] (Except.ok []) (fun _ => none) _ _ rfl rfl

/-- C1 counterexample: with `popeye_args` set to a single unclosed quote —
a legal `PopeyeParams` value — `shlex.split` raises before the PENDING state
is emitted and the exception propagates to the caller, so the unguarded
claim is false: no lifecycle pair is emitted at all. -/
theorem popeye_scan_unclosed_quote_counterexample :
    popeye_scan badParams [] (Except.ok []) (fun _ => none) =
      Except.error (chars "ValueError: No closing quotation") := by
  rfl

/-- C5: the concrete raw log in which no line starts with the JSON opener
cleans to the empty string; with any parser behaviour that rejects the empty
string (as `json.loads` does), the action run on those logs emits PENDING
then FAILED and submits no finding; and on every failure path of every run —
whenever a FAILED state is emitted — no finding is submitted. -/
theorem failure_path_no_finding :
    clean_up_k8s_logs_from_job_output c5logs = []
  ∧ (∀ parseReport : Str → Option PopeyeReport, parseReport [] = none →
      popeye_scan defaultParams [] (Except.ok c5logs) parseReport =
        Except.ok { events := [ScanState.pending, ScanState.failed], finding := none })
  ∧ (∀ (params : PopeyeParams) (scanId : Str) (runJob : Except Str Str)
      (parseReport : Str → Option PopeyeReport) (res : ScanResult),
      popeye_scan params scanId runJob parseReport = Except.ok res →
      ScanState.failed ∈ res.events → res.finding = none) := by
  have hclean : clean_up_k8s_logs_from_job_output c5logs = [] := by decide
  refine ⟨hclean, ?_, ?_⟩
  · intro parseReport hp
    rw [popeye_scan_ok defaultParams [] c5logs parseReport _ _ rfl rfl, hclean, hp]
  · intro params scanId runJob parseReport res h hmem
    cases hsan : sanitizeArgs params with
    | none =>
      simp only [popeye_scan, hsan] at h
      exact Except.noConfusion h
    | some sargs =>
      cases hspec : buildPodSpec params sargs with
      | none =>
        simp only [popeye_scan, hsan, hspec] at h
        exact Except.noConfusion h
      | some spec =>
        cases runJob with
        | error e =>
          rw [popeye_scan_err params scanId e parseReport sargs spec hsan hspec] at h
          rw [← Except.ok.inj h]
        | ok logs =>
          rw [popeye_scan_ok params scanId logs parseReport sargs spec hsan hspec] at h
          cases hp : parseReport (clean_up_k8s_logs_from_job_output logs) with
          | none =>
            rw [hp] at h
            rw [← Except.ok.inj h]
          | some report =>
            rw [hp] at h
            rw [← Except.ok.inj h] at hmem
            simp at hmem

/-- C5 witness: the failure run at the concrete logs with the
empty-rejecting parser. -/
theorem failure_path_no_finding_witness :
    popeye_scan defaultParams [] (Except.ok c5logs) (fun _ => none) =
      Except.ok { events := [ScanState.pending, ScanState.failed], finding := none } :=
  failure_path_no_finding.2.1 (fun _ => none) rfl
